import Mathlib

/-!
Verification development for the local-weaviate-rag repository.

The development shallowly embeds the parts of the Python source that the
checked properties are about:

* `src/rag/utils.py` — `sentence_split`, `chunk_text`, `backoff_retry`;
* `src/rag/ingest.py` — `embed_chunks`, `ensure_schema`;
* `src/api/models/requests.py` — `QueryOptions` and its field validators;
* `src/api/services/query.py` — context truncation and the
  distance-to-similarity conversion in `QueryService.process_query`.

Modelling conventions:

* Python strings are modelled by `String` (a structure around `List Char`);
  the character-level helpers mirror `str.strip`, `str.split`, `str.isspace`
  and `str.isupper` for ASCII data.  All concrete inputs used below are
  ASCII, where the Python and Lean character classes agree.
* The tiktoken encoder is an external collaborator; the token count
  `len(enc.encode(s))` is abstracted as a parameter `tok : String → Nat`.
  `charTok` (one token per character) instantiates it in concrete runs.
* Python floats (`base_delay`, `factor`, `distance`, `alpha`) are modelled
  as rationals; the properties checked use only exactly representable
  values, where float and rational arithmetic agree.
* Functions that scan a character list and may consume more than one
  character per step take a fuel argument (always instantiated with the
  length of the input, which each step strictly decreases), so that every
  definition is structurally recursive and kernel-evaluable.
-/

namespace Rag

/-- Whitespace test matching Python `str.isspace` and the regex class
backslash-s on ASCII characters. -/
def isPySpace (c : Char) : Bool :=
  c = ' ' || c = '\t' || c = '\n' || c = '\x0d' || c = '\x0b' || c = '\x0c'

/-- Character-list version of Python `str.strip()`: drop leading and
trailing whitespace. -/
def stripChars (l : List Char) : List Char :=
  ((l.dropWhile isPySpace).reverse.dropWhile isPySpace).reverse

/-- Python `s.strip()`. -/
def pyStrip (s : String) : String :=
  ⟨stripChars s.data⟩

/-- Python `text.split("\n\n")` on character lists: split on each
non-overlapping occurrence of two consecutive newline characters,
scanning left to right.  `acc` holds the current piece, reversed. -/
def splitParasGo (acc : List Char) : List Char → List (List Char)
  | [] => [acc.reverse]
  | '\n' :: '\n' :: rest => acc.reverse :: splitParasGo [] rest
  | c :: rest => splitParasGo (c :: acc) rest

/-- Python `text.split("\n\n")`. -/
def splitParas (text : String) : List String :=
  (splitParasGo [] text.data).map (fun l => ⟨l⟩)

/-- The regex character class `[.!?]` of `sentence_split`. -/
def isSentEnd (c : Char) : Bool :=
  c = '.' || c = '!' || c = '?'

/-- Scanner implementing `re.split(r"[.!?]+\s+(?=[A-Z])", para)` from
`sentence_split` (src/rag/utils.py lines 104-109).  Because the three
character classes of the pattern are pairwise disjoint, the regex matches
at a position exactly when a maximal nonempty run of `[.!?]` is followed
by a maximal nonempty run of whitespace whose next character is an ASCII
uppercase letter; the matched run is consumed (so the punctuation is
dropped from the output pieces) and the lookahead character is not.
When no match starts at the current position the scanner advances one
character, as the regex engine does.  The fuel argument dominates the
number of characters left and each step consumes at least one. -/
def reSplitGo : Nat → List Char → List Char → List (List Char)
  | 0, acc, _ => [acc.reverse]
  | _ + 1, acc, [] => [acc.reverse]
  | fuel + 1, acc, c :: rest =>
    if isSentEnd c then
      let afterPunc := (c :: rest).dropWhile isSentEnd
      let ws := afterPunc.takeWhile isPySpace
      let afterWs := afterPunc.dropWhile isPySpace
      if ws ≠ [] ∧ (afterWs.head?.map Char.isUpper).getD false then
        acc.reverse :: reSplitGo fuel [] afterWs
      else
        reSplitGo fuel (c :: acc) rest
    else
      reSplitGo fuel (c :: acc) rest

/-- Result of the regex split of a paragraph. -/
def reSplit (para : String) : List String :=
  (reSplitGo para.data.length [] para.data).map (fun l => ⟨l⟩)

/-- Fallback character scan of `sentence_split` (src/rag/utils.py lines
112-128), used when the regex split produced a single piece: walk the
paragraph, appending each character to a buffer, and flush the stripped
buffer whenever the character is sentence-ending punctuation that is not
the last character, the next character is whitespace, and the character
after that exists and is uppercase. -/
def fallbackGo (tmp : List String) (buf : List Char) : List Char → List String
  | [] => if buf = [] then tmp else tmp ++ [⟨stripChars buf.reverse⟩]
  | c :: rest =>
    let buf' := c :: buf
    if isSentEnd c &&
        (match rest with
         | r1 :: r2 :: _ => isPySpace r1 && r2.isUpper
         | _ => false) then
      fallbackGo (tmp ++ [⟨stripChars buf'.reverse⟩]) [] rest
    else
      fallbackGo tmp buf' rest

/-- The fallback sentence scan of a paragraph. -/
def fallbackSplit (para : String) : List String :=
  fallbackGo [] [] para.data

/-- Embedding of `sentence_split` (src/rag/utils.py lines 88-132):
paragraphs are split on double newlines; empty paragraphs are skipped;
each paragraph goes through the regex split, falling back to the
character scan when the regex produced a single piece; pieces are
stripped and empty ones dropped; if nothing remains, the stripped whole
text is returned as the single sentence. -/
def sentence_split (text : String) : List String :=
  let parts := (splitParas text).foldl
    (fun parts para =>
      let para := pyStrip para
      if para = "" then parts
      else
        let sentences := reSplit para
        let sentences :=
          if sentences.length = 1 then fallbackSplit para else sentences
        parts ++ ((sentences.map pyStrip).filter (fun s => s ≠ ""))) []
  if parts = [] then [pyStrip text] else parts

/-- Python `" ".join(l)` at the character level. -/
def joinSpaceChars : List (List Char) → List Char
  | [] => []
  | [x] => x
  | x :: rest => x ++ ' ' :: joinSpaceChars rest

/-- Python `" ".join(cur)` on strings. -/
def joinSpace (l : List String) : String :=
  ⟨joinSpaceChars (l.map String.data)⟩

/-- Finalization of a chunk buffer: `" ".join(cur).strip()`
(src/rag/utils.py lines 163 and 187). -/
def finalizeChunk (cur : List String) : String :=
  pyStrip (joinSpace cur)

/-- The backward walk building the overlap carry-over (src/rag/utils.py
lines 168-176): iterate over the reversed buffer, stopping as soon as
adding the next sentence would push the accumulated token count past
`overlap_tokens`; `insert(0, sent)` keeps the kept tail in original
order. -/
def overlapLoop (tok : String → Nat) (overlap_tokens : Nat) :
    List String → List String → Nat → List String
  | [], ov, _ => ov
  | sent :: rest, ov, toks =>
    let t := tok sent
    if overlap_tokens < toks + t then ov
    else overlapLoop tok overlap_tokens rest (sent :: ov) (toks + t)

/-- Overlap carried from a finalized buffer into the next chunk. -/
def overlapOf (tok : String → Nat) (overlap_tokens : Nat)
    (cur : List String) : List String :=
  overlapLoop tok overlap_tokens cur.reverse [] 0

/-- Main loop of `chunk_text` (src/rag/utils.py lines 159-187) at the
string level: `chunks` holds the finalized chunk strings, `cur` the
sentence buffer and `curToks` the running token count of `cur`.  Before
adding a sentence whose tokens would overflow a nonempty buffer, the
buffer is finalized and the new buffer is seeded with the overlap
carry-over (empty when `overlap_tokens` is 0); the sentence is then
appended to the new buffer.  After the loop a nonempty buffer is
finalized as the last chunk. -/
def chunkLoop (tok : String → Nat) (chunk_tokens overlap_tokens : Nat) :
    List String → List String → List String → Nat → List String
  | [], chunks, cur, _ =>
    if cur = [] then chunks else chunks ++ [finalizeChunk cur]
  | s :: rest, chunks, cur, curToks =>
    let stoks := tok s
    if cur ≠ [] ∧ chunk_tokens < curToks + stoks then
      let chunks := chunks ++ [finalizeChunk cur]
      if 0 < overlap_tokens then
        let ov := overlapOf tok overlap_tokens cur
        chunkLoop tok chunk_tokens overlap_tokens rest chunks (ov ++ [s])
          ((ov.map tok).sum + stoks)
      else
        chunkLoop tok chunk_tokens overlap_tokens rest chunks [s] stoks
    else
      chunkLoop tok chunk_tokens overlap_tokens rest chunks (cur ++ [s])
        (curToks + stoks)

/-- Embedding of `chunk_text` (src/rag/utils.py lines 135-190), with the
token counter `len(enc.encode(s))` abstracted as `tok`.  The final list
comprehension drops empty chunks. -/
def chunk_text (tok : String → Nat) (text : String)
    (chunk_tokens overlap_tokens : Nat) : List String :=
  (chunkLoop tok chunk_tokens overlap_tokens (sentence_split text) [] [] 0).filter
    (fun c => c ≠ "")

/-- The same loop as `chunkLoop`, but recording each finalized buffer as
its list of sentences instead of the joined string.  The two loops take
the same branches; `chunkLoop_eq_bufLoop` below relates them. -/
def chunkBufLoop (tok : String → Nat) (chunk_tokens overlap_tokens : Nat) :
    List String → List (List String) → List String → Nat → List (List String)
  | [], chunks, cur, _ =>
    if cur = [] then chunks else chunks ++ [cur]
  | s :: rest, chunks, cur, curToks =>
    let stoks := tok s
    if cur ≠ [] ∧ chunk_tokens < curToks + stoks then
      let chunks := chunks ++ [cur]
      if 0 < overlap_tokens then
        let ov := overlapOf tok overlap_tokens cur
        chunkBufLoop tok chunk_tokens overlap_tokens rest chunks (ov ++ [s])
          ((ov.map tok).sum + stoks)
      else
        chunkBufLoop tok chunk_tokens overlap_tokens rest chunks [s] stoks
    else
      chunkBufLoop tok chunk_tokens overlap_tokens rest chunks (cur ++ [s])
        (curToks + stoks)

/-- The sentence buffers that `chunk_text` finalizes on the given text. -/
def chunkBuffers (tok : String → Nat) (chunk_tokens overlap_tokens : Nat)
    (sents : List String) : List (List String) :=
  chunkBufLoop tok chunk_tokens overlap_tokens sents [] [] 0

/-- The buffer loop with each buffer split into its overlap seed (carried
from the previous chunk; empty for the first chunk and when
`overlap_tokens` is 0) and the sentences newly consumed from the input.
Used to show that the chunks cover the sentence sequence in order. -/
def chunkAnnLoop (tok : String → Nat) (chunk_tokens overlap_tokens : Nat) :
    List String → List (List String × List String) → List String →
      List String → Nat → List (List String × List String)
  | [], acc, curSeed, curNew, _ =>
    if curSeed ++ curNew = [] then acc else acc ++ [(curSeed, curNew)]
  | s :: rest, acc, curSeed, curNew, curToks =>
    let stoks := tok s
    if curSeed ++ curNew ≠ [] ∧ chunk_tokens < curToks + stoks then
      let acc := acc ++ [(curSeed, curNew)]
      let seed :=
        if 0 < overlap_tokens then overlapOf tok overlap_tokens (curSeed ++ curNew)
        else []
      chunkAnnLoop tok chunk_tokens overlap_tokens rest acc seed [s]
        ((seed.map tok).sum + stoks)
    else
      chunkAnnLoop tok chunk_tokens overlap_tokens rest acc curSeed
        (curNew ++ [s]) (curToks + stoks)

/-- Number of loop iterations `chunk_text` performs: one per sentence,
whatever the parameters (mirrors the branch structure of `chunkLoop`). -/
def chunkSteps (tok : String → Nat) (chunk_tokens overlap_tokens : Nat) :
    List String → List String → Nat → Nat
  | [], _, _ => 0
  | s :: rest, cur, curToks =>
    let stoks := tok s
    if cur ≠ [] ∧ chunk_tokens < curToks + stoks then
      if 0 < overlap_tokens then
        let ov := overlapOf tok overlap_tokens cur
        1 + chunkSteps tok chunk_tokens overlap_tokens rest (ov ++ [s])
          ((ov.map tok).sum + stoks)
      else
        1 + chunkSteps tok chunk_tokens overlap_tokens rest [s] stoks
    else
      1 + chunkSteps tok chunk_tokens overlap_tokens rest (cur ++ [s])
        (curToks + stoks)

/-- Concrete stand-in for the abstract token counter: one token per
character. -/
def charTok (s : String) : Nat :=
  s.data.length

/-- Batching of `embed_chunks` (src/rag/ingest.py lines 110-111): the
slices `chunks[i : i + 100]` for `i = 0, 100, 200, ...`.  The fuel is
instantiated with the list length; each batch consumes at least one
element. -/
def batchesGo : Nat → List String → List (List String)
  | 0, _ => []
  | fuel + 1, l =>
    if l = [] then [] else l.take 100 :: batchesGo fuel (l.drop 100)

/-- The batches submitted to the embedding provider for a chunk list. -/
def batches (l : List String) : List (List String) :=
  batchesGo l.length l

/-- Per-batch loop of `embed_chunks` (src/rag/ingest.py lines 110-119):
each batch is sent to the provider; a raised exception propagates (the
surrounding try/except re-raises after logging), otherwise the returned
vectors extend the accumulator. -/
def embedBatchesLoop (create : List String → Except E (List V)) :
    List (List String) → List V → Except E (List V)
  | [], acc => Except.ok acc
  | b :: rest, acc =>
    match create b with
    | Except.error e => Except.error e
    | Except.ok vs => embedBatchesLoop create rest (acc ++ vs)

/-- Embedding of `embed_chunks` (src/rag/ingest.py lines 92-122).  The
external provider call `client.embeddings.create(model=model,
input=batch)` is abstracted as `create`, returning either the vectors of
a batch or a raised exception. -/
def embed_chunks (create : List String → Except E (List V))
    (chunks : List String) : Except E (List V) :=
  embedBatchesLoop create (batches chunks) []

/-- Attempt loop of the `backoff_retry` wrapper (src/rag/utils.py lines
215-228).  The wrapped call is abstracted as `f`, giving the outcome of
each numbered attempt.  The loop walks the attempt numbers `1, ...,
retries`; on success it returns the result, on failure at the last
attempt it re-raises, otherwise it sleeps for the current delay (the
delays slept are collected in order) and multiplies the delay by
`factor`.  If the range is empty (`retries = 0`) the Python function
falls through and returns `None`, modelled as `none`. -/
def backoffLoop (f : Nat → Except E A) (retries : Nat) (factor : ℚ) :
    List Nat → ℚ → List ℚ → Option (Except E A) × List ℚ
  | [], _, sleeps => (none, sleeps)
  | attempt :: rest, delay, sleeps =>
    match f attempt with
    | Except.ok a => (some (Except.ok a), sleeps)
    | Except.error e =>
      if attempt = retries then (some (Except.error e), sleeps)
      else backoffLoop f retries factor rest (delay * factor) (sleeps ++ [delay])

/-- Embedding of `backoff_retry` (src/rag/utils.py lines 193-230): runs
the attempt loop over `range(1, retries + 1)` starting from
`base_delay`.  Returns the outcome (`none` when the loop body never ran)
together with the list of delays slept, in order. -/
def backoff_retry (f : Nat → Except E A) (retries : Nat)
    (base_delay factor : ℚ) : Option (Except E A) × List ℚ :=
  backoffLoop f retries factor (List.range' 1 retries) base_delay []

/-- The `QueryOptions` request model (src/api/models/requests.py lines
45-57): integer knobs are Python ints, float knobs rationals. -/
structure QueryOptions where
  top_k : Int
  hybrid_alpha : ℚ
  max_context_chunks : Int
  temperature : ℚ
deriving DecidableEq

/-- The pydantic field validation of `QueryOptions`: `top_k` in [1, 20],
`hybrid_alpha` in [0, 1], `max_context_chunks` in [1, 10], `temperature`
in [0, 2].  A request whose options fail any bound is rejected; there is
no cross-field constraint. -/
def QueryOptions.accepted (o : QueryOptions) : Bool :=
  1 ≤ o.top_k && o.top_k ≤ 20 &&
  0 ≤ o.hybrid_alpha && o.hybrid_alpha ≤ 1 &&
  1 ≤ o.max_context_chunks && o.max_context_chunks ≤ 10 &&
  0 ≤ o.temperature && o.temperature ≤ 2

/-- The default `QueryOptions`: `top_k = 5`, `hybrid_alpha = 0.5`,
`max_context_chunks = 6`, `temperature = 0.2` (src/api/models/requests.py;
the same defaults appear in src/api/dependencies/config.py lines 33-35). -/
def defaultQueryOptions : QueryOptions :=
  ⟨5, 1 / 2, 6, 1 / 5⟩

/-- Context truncation `search_results[:max_context_chunks]` in
`QueryService.process_query` (src/api/services/query.py line 121); for
the nonnegative bounds accepted by validation, Python slicing is
`List.take`. -/
def contextSlice (results : List α) (max_context_chunks : Int) : List α :=
  results.take max_context_chunks.toNat

/-- Distance-to-similarity conversion in `QueryService.process_query`
(src/api/services/query.py lines 127-132): the score defaults to `0.0`
when no distance metadata is present and is `max(0.0, 1.0 - distance)`
otherwise. -/
def scoreOf (distance : Option ℚ) : ℚ :=
  match distance with
  | none => 0
  | some d => max 0 (1 - d)

/-- State of the vector-store client visible to `ensure_schema`: the
stored collections by name (over an abstract collection payload `C`) and
the outcome of the liveness probe `fetch_objects(limit=1)` on each
stored collection. -/
structure WClient (C : Type) where
  colls : String → Option C
  live : C → Bool

/-- Embedding of `ensure_schema` (src/rag/ingest.py lines 24-89).  The
function first fetches the collection and probes it; if the probe
succeeds the existing collection is returned and nothing else happens.
Otherwise (collection missing or probe raising) the except-path runs: a
delete is attempted (destructive exactly when a collection was stored
under the name), then the collection is created fresh and returned.
The result carries the returned collection, the client state afterwards
and whether a stored collection was destructively deleted. -/
def ensure_schema (cl : WClient C) (fresh : C) (name : String) :
    C × WClient C × Bool :=
  match cl.colls name with
  | some c =>
    if cl.live c then
      (c, cl, false)
    else
      let afterDelete : WClient C :=
        { cl with colls := fun n => if n = name then none else cl.colls n }
      let afterCreate : WClient C :=
        { afterDelete with
            colls := fun n => if n = name then some fresh else afterDelete.colls n }
      (fresh, afterCreate, true)
  | none =>
    let afterCreate : WClient C :=
      { cl with colls := fun n => if n = name then some fresh else cl.colls n }
    (fresh, afterCreate, false)

/-- The disjunction every finalized chunk buffer satisfies: its token sum
is within the chunk budget, or it is an overlap seed (of at most
`overlap_tokens` tokens) followed by one sentence that overflowed the
budget. -/
def chunkSizeOk (tok : String → Nat) (chunk_tokens overlap_tokens : Nat)
    (B : List String) : Prop :=
  (B.map tok).sum ≤ chunk_tokens ∨
    ∃ seed s, B = seed ++ [s] ∧ (seed.map tok).sum ≤ overlap_tokens ∧
      (B.map tok).sum ≤ overlap_tokens + tok s

/-- Concrete embedding provider for witnesses: always answers, one
vector (here a number) per input string. -/
def embFix (b : List String) : Except Nat (List Nat) :=
  Except.ok (b.map charTok)

/-- Concrete wrapped operation for witnesses: attempts 1 and 2 raise,
attempt 3 and later succeed with 7. -/
def retryFix (i : Nat) : Except Nat Nat :=
  if i ≤ 2 then Except.error i else Except.ok 7

/-- Concrete vector-store client for witnesses: one live collection
named Documents. -/
def clientFix : WClient Nat :=
  ⟨fun n => if n = "Documents" then some 0 else none, fun _ => true⟩

/-- C9: the distance-to-similarity conversion computed for each retrieved
chunk is similarity = max(0, 1 - distance); for distances 0, 0.5, 1 and 2
it yields 1, 0.5, 0 and 0 respectively, and the score is never negative
for any distance (including the no-metadata default). -/
theorem similarity_clamp :
    scoreOf (some 0) = 1 ∧ scoreOf (some (1 / 2)) = 1 / 2 ∧
    scoreOf (some 1) = 0 ∧ scoreOf (some 2) = 0 ∧
    (∀ q : ℚ, scoreOf (some q) = max 0 (1 - q)) ∧
    (∀ d : Option ℚ, 0 ≤ scoreOf d) := by
  refine ⟨by norm_num [scoreOf], by norm_num [scoreOf], by norm_num [scoreOf],
    by norm_num [scoreOf], fun q => rfl, fun d => ?_⟩
  cases d with
  | none => exact le_refl 0
  | some q => exact le_max_left 0 (1 - q)

/-- C6 counterexample: the default query options (top_k = 5,
max_context_chunks = 6) pass the request validation, yet
max_context_chunks exceeds top_k — the inequality the claim asserts is
not enforced anywhere. -/
theorem max_context_counterexample :
    defaultQueryOptions.accepted = true ∧
    ¬ defaultQueryOptions.max_context_chunks ≤ defaultQueryOptions.top_k := by
  constructor
  · norm_num [defaultQueryOptions, QueryOptions.accepted]
  · norm_num [defaultQueryOptions]

/-- C6 amended: accepted queries only guarantee 1 ≤ top_k ≤ 20 and
1 ≤ max_context_chunks ≤ 10 independently; max_context_chunks ≤ top_k is
not enforced.  What does hold is that the number of chunks placed in the
LLM context — the length of search_results[:max_context_chunks] — never
exceeds max_context_chunks, and never exceeds top_k either whenever the
search returned at most top_k results. -/
theorem max_context_amended (o : QueryOptions) (h : o.accepted = true) :
    1 ≤ o.top_k ∧ o.top_k ≤ 20 ∧
    1 ≤ o.max_context_chunks ∧ o.max_context_chunks ≤ 10 ∧
    ∀ (results : List String), results.length ≤ o.top_k.toNat →
      (contextSlice results o.max_context_chunks).length ≤ o.top_k.toNat ∧
      (contextSlice results o.max_context_chunks).length ≤
        o.max_context_chunks.toNat := by
  simp only [QueryOptions.accepted, Bool.and_eq_true, decide_eq_true_eq] at h
  obtain ⟨⟨⟨⟨⟨⟨⟨h1, h2⟩, h3⟩, h4⟩, h5⟩, h6⟩, h7⟩, h8⟩ := h
  refine ⟨h1, h2, h5, h6, fun results hlen => ⟨?_, ?_⟩⟩
  · calc (contextSlice results o.max_context_chunks).length
        ≤ results.length := List.length_take_le' _ results
      _ ≤ o.top_k.toNat := hlen
  · exact List.length_take_le _ results

/-- C6 amended witness: the default options at a three-element result
list retrieved with top_k = 5. -/
theorem max_context_amended_witness :
    1 ≤ defaultQueryOptions.top_k ∧ defaultQueryOptions.top_k ≤ 20 ∧
    1 ≤ defaultQueryOptions.max_context_chunks ∧
    defaultQueryOptions.max_context_chunks ≤ 10 ∧
    (contextSlice (["a", "b", "c"] : List String)
        defaultQueryOptions.max_context_chunks).length ≤
      defaultQueryOptions.top_k.toNat ∧
    (contextSlice (["a", "b", "c"] : List String)
        defaultQueryOptions.max_context_chunks).length ≤
      defaultQueryOptions.max_context_chunks.toNat := by
  have h := max_context_amended defaultQueryOptions
    (by norm_num [defaultQueryOptions, QueryOptions.accepted])
  obtain ⟨h1, h2, h3, h4, h5⟩ := h
  have h6 := h5 (["a", "b", "c"] : List String)
    (by norm_num [defaultQueryOptions])
  exact ⟨h1, h2, h3, h4, h6.1, h6.2⟩

/-- C8: when the liveness probe on an existing collection succeeds,
ensure_schema returns that collection, changes nothing and performs no
destructive delete; running it a second time on the resulting state does
the same, so an already-valid collection is never wiped. -/
theorem ensure_schema_idempotent {C : Type} (cl : WClient C) (fresh : C)
    (name : String) (c : C) (hc : cl.colls name = some c)
    (hlive : cl.live c = true) :
    ensure_schema cl fresh name = (c, cl, false) ∧
    ensure_schema (ensure_schema cl fresh name).2.1 fresh name =
      (c, cl, false) := by
  have h1 : ensure_schema cl fresh name = (c, cl, false) := by
    simp [ensure_schema, hc, hlive]
  exact ⟨h1, by rw [h1]; exact h1⟩

/-- C8 witness: the fixture client keeps its Documents collection across
two ensure_schema calls. -/
theorem ensure_schema_idempotent_witness :
    ensure_schema clientFix 1 ("Documents") = (0, clientFix, false) ∧
    ensure_schema (ensure_schema clientFix 1 ("Documents")).2.1 1
        ("Documents") = (0, clientFix, false) :=
  ensure_schema_idempotent clientFix 1 ("Documents") 0 (by simp [clientFix]) rfl

/-- Concatenating the batches gives back the submitted chunk list. -/
theorem flatten_batchesGo :
    ∀ (fuel : Nat) (l : List String), l.length ≤ fuel →
      (batchesGo fuel l).flatten = l := by
  intro fuel
  induction fuel with
  | zero =>
    intro l hl
    have : l = [] := List.length_eq_zero.mp (Nat.le_zero.mp hl)
    subst this
    rfl
  | succ n ih =>
    intro l hl
    by_cases h : l = []
    · subst h; rfl
    · have hpos : 1 ≤ l.length := by
        cases l with
        | nil => exact absurd rfl h
        | cons a t => exact Nat.succ_le_succ (Nat.zero_le _)
      have hdrop : (l.drop 100).length ≤ n := by
        rw [List.length_drop]
        omega
      simp only [batchesGo, if_neg h, List.flatten_cons, ih _ hdrop,
        List.take_append_drop]

/-- Concatenating the batches of a chunk list gives it back. -/
theorem flatten_batches (l : List String) : (batches l).flatten = l :=
  flatten_batchesGo l.length l le_rfl

/-- Batch loop: either some batch raised, or the accumulated vector list
grows by exactly the total size of the batches, assuming the provider
answers each batch with one vector per input. -/
theorem embedBatchesLoop_length {E V : Type}
    (create : List String → Except E (List V))
    (hlen : ∀ b vs, create b = Except.ok vs → vs.length = b.length) :
    ∀ (bs : List (List String)) (acc : List V),
      (∃ e, embedBatchesLoop create bs acc = Except.error e) ∨
      (∃ vs, embedBatchesLoop create bs acc = Except.ok vs ∧
        vs.length = acc.length + bs.flatten.length) := by
  intro bs
  induction bs with
  | nil =>
    intro acc
    exact Or.inr ⟨acc, rfl, by simp⟩
  | cons b rest ih =>
    intro acc
    cases hb : create b with
    | error e =>
      exact Or.inl ⟨e, by simp [embedBatchesLoop, hb]⟩
    | ok vs =>
      rcases ih (acc ++ vs) with ⟨e, he⟩ | ⟨ws, hw, hwlen⟩
      · exact Or.inl ⟨e, by simp [embedBatchesLoop, hb, he]⟩
      · refine Or.inr ⟨ws, by simp [embedBatchesLoop, hb, hw], ?_⟩
        rw [hwlen, List.length_append, hlen b vs hb]
        simp [Nat.add_assoc]

/-- Batch loop under a deterministic pointwise provider: the result is
the accumulated vectors followed by the image of the concatenated
batches. -/
theorem embedBatchesLoop_map {E V : Type} (emb : String → V)
    (create : List String → Except E (List V))
    (hmap : ∀ b, create b = Except.ok (b.map emb)) :
    ∀ (bs : List (List String)) (acc : List V),
      embedBatchesLoop create bs acc = Except.ok (acc ++ bs.flatten.map emb) := by
  intro bs
  induction bs with
  | nil => intro acc; simp [embedBatchesLoop]
  | cons b rest ih =>
    intro acc
    simp [embedBatchesLoop, hmap b, ih, List.append_assoc]

/-- C5: for every chunk list submitted to embed_chunks, either the call
raises (some batch raised) or it returns exactly one vector per chunk —
never a list of a different length; moreover, when the provider maps
each batch pointwise, the result is the pointwise image of the input in
input order. -/
theorem embed_chunks_length {E V : Type}
    (create : List String → Except E (List V)) (chunks : List String)
    (hlen : ∀ b vs, create b = Except.ok vs → vs.length = b.length) :
    ((∃ e, embed_chunks create chunks = Except.error e) ∨
      (∃ vs, embed_chunks create chunks = Except.ok vs ∧
        vs.length = chunks.length)) ∧
    (∀ emb : String → V, (∀ b, create b = Except.ok (b.map emb)) →
      embed_chunks create chunks = Except.ok (chunks.map emb)) := by
  constructor
  · rcases embedBatchesLoop_length create hlen (batches chunks) [] with
      ⟨e, he⟩ | ⟨vs, hv, hvlen⟩
    · exact Or.inl ⟨e, he⟩
    · refine Or.inr ⟨vs, hv, ?_⟩
      rw [hvlen, flatten_batches]
      simp
  · intro emb hmap
    have h := embedBatchesLoop_map emb create hmap (batches chunks) []
    rw [flatten_batches] at h
    simpa [embed_chunks] using h

/-- C5 witness: the fixture provider embeds three chunks into exactly
three vectors. -/
theorem embed_chunks_length_witness :
    embed_chunks embFix ["a", "bb", "ccc"] = Except.ok [1, 2, 3] := by
  have h := (embed_chunks_length embFix (["a", "bb", "ccc"])
    (fun b vs hv => by
      simp only [embFix, Except.ok.injEq] at hv
      rw [← hv, List.length_map])).2 charTok (fun b => rfl)
  rw [h]
  rfl

/-- Attempt loop, success case: with every attempt before `i` failing
(and not being the last allowed attempt), attempt `i` inside the range
returns its result, after sleeping once per preceding failure with
geometrically growing delays. -/
theorem backoffLoop_success {E A : Type} (f : Nat → Except E A)
    (retries : Nat) (factor : ℚ) (i : Nat) (v : A)
    (hok : f i = Except.ok v) :
    ∀ (n a : Nat) (delay : ℚ) (sleeps : List ℚ),
      a ≤ i → i < a + n →
      (∀ j, a ≤ j → j < i → (∃ e, f j = Except.error e) ∧ j ≠ retries) →
      backoffLoop f retries factor (List.range' a n) delay sleeps =
        (some (Except.ok v),
          sleeps ++ (List.range (i - a)).map (fun k => delay * factor ^ k)) := by
  intro n
  induction n with
  | zero =>
    intro a delay sleeps ha hlt _
    omega
  | succ m ih =>
    intro a delay sleeps ha hlt hj
    rw [List.range'_succ]
    rcases Nat.eq_or_lt_of_le ha with rfl | halt
    · rw [backoffLoop, hok]
      simp
    · obtain ⟨⟨e, he⟩, hne⟩ := hj a le_rfl halt
      rw [backoffLoop, he]
      show (if a = retries then (some (Except.error e), sleeps)
          else backoffLoop f retries factor (List.range' (a + 1) m)
            (delay * factor) (sleeps ++ [delay])) = _
      rw [if_neg hne,
        ih (a + 1) (delay * factor) (sleeps ++ [delay]) halt (by omega)
          (fun j h1 h2 => hj j (by omega) h2)]
      have hia : i - a = (i - (a + 1)) + 1 := by omega
      rw [hia, List.range_succ_eq_map, List.map_cons, List.map_map]
      have hmap :
          (List.range (i - (a + 1))).map
              ((fun k => delay * factor ^ k) ∘ Nat.succ) =
            (List.range (i - (a + 1))).map
              (fun k => delay * factor * factor ^ k) := by
        refine List.map_congr_left (fun k _ => ?_)
        simp only [Function.comp_apply, pow_succ]
        ring
      rw [hmap]
      simp [mul_comm]

/-- Attempt loop, exhaustion case: when every attempt in the remaining
range fails, the loop reaches the final attempt `retries` and returns
its error, having slept after every failed attempt but the last. -/
theorem backoffLoop_allfail {E A : Type} (f : Nat → Except E A)
    (retries : Nat) (factor : ℚ) (err : Nat → E)
    (hfail : ∀ j, 1 ≤ j → j ≤ retries → f j = Except.error (err j)) :
    ∀ (n a : Nat) (delay : ℚ) (sleeps : List ℚ),
      1 ≤ a → a + n = retries + 1 → 1 ≤ n →
      backoffLoop f retries factor (List.range' a n) delay sleeps =
        (some (Except.error (err retries)),
          sleeps ++ (List.range (retries - a)).map
            (fun k => delay * factor ^ k)) := by
  intro n
  induction n with
  | zero => omega
  | succ m ih =>
    intro a delay sleeps ha hsum _
    rw [List.range'_succ, backoffLoop, hfail a ha (by omega)]
    show (if a = retries then (some (Except.error (err a)), sleeps)
        else backoffLoop f retries factor (List.range' (a + 1) m)
          (delay * factor) (sleeps ++ [delay])) = _
    rcases Nat.eq_zero_or_pos m with rfl | hm
    · have har : a = retries := by omega
      subst har
      simp
    · have hne : a ≠ retries := by omega
      rw [if_neg hne,
        ih (a + 1) (delay * factor) (sleeps ++ [delay]) (by omega)
          (by omega) hm]
      have hra : retries - a = (retries - (a + 1)) + 1 := by omega
      rw [hra, List.range_succ_eq_map, List.map_cons, List.map_map]
      have hmap :
          (List.range (retries - (a + 1))).map
              ((fun k => delay * factor ^ k) ∘ Nat.succ) =
            (List.range (retries - (a + 1))).map
              (fun k => delay * factor * factor ^ k) := by
        refine List.map_congr_left (fun k _ => ?_)
        simp only [Function.comp_apply, pow_succ]
        ring
      rw [hmap]
      simp [mul_comm]

/-- C7: for a function wrapped by backoff_retry with at least one
allowed attempt — if some attempt i within the budget succeeds after the
earlier ones failed, the wrapper returns that attempt's result, having
slept base_delay * factor^(k-1) after each failed attempt k < i; if all
attempts fail, the last attempt's exception propagates (no fallback
result), after sleeping base_delay * factor^(k-1) for each failed
attempt k < retries. -/
theorem backoff_retry_spec {E A : Type} (f : Nat → Except E A)
    (retries : Nat) (base_delay factor : ℚ) (hr : 1 ≤ retries) :
    (∀ (i : Nat) (v : A), 1 ≤ i → i ≤ retries → f i = Except.ok v →
      (∀ j, 1 ≤ j → j < i → ∃ e, f j = Except.error e) →
      backoff_retry f retries base_delay factor =
        (some (Except.ok v),
          (List.range (i - 1)).map (fun k => base_delay * factor ^ k))) ∧
    (∀ err : Nat → E, (∀ j, 1 ≤ j → j ≤ retries → f j = Except.error (err j)) →
      backoff_retry f retries base_delay factor =
        (some (Except.error (err retries)),
          (List.range (retries - 1)).map (fun k => base_delay * factor ^ k))) := by
  constructor
  · intro i v h1 h2 hok hfail
    have h := backoffLoop_success f retries factor i v hok retries 1
      base_delay [] h1 (by omega)
      (fun j hj1 hj2 => ⟨hfail j hj1 hj2, by omega⟩)
    simpa [backoff_retry] using h
  · intro err hfail
    have h := backoffLoop_allfail f retries factor err hfail retries 1
      base_delay [] le_rfl (by omega) hr
    simpa [backoff_retry] using h

/-- C7 witness: the fixture operation fails twice and succeeds at the
third of four allowed attempts, returning 7 after sleeping 0.5 s then
1 s. -/
theorem backoff_retry_spec_witness :
    backoff_retry retryFix 4 (1 / 2) 2 = (some (Except.ok 7), [1 / 2, 1]) := by
  have h := (backoff_retry_spec retryFix 4 (1 / 2) 2 (by norm_num)).1 3 7
    (by norm_num) (by norm_num) rfl
    (fun j h1 h2 => ⟨j, by
      have hj : j ≤ 2 := by omega
      simp [retryFix, hj]⟩)
  rw [h]
  norm_num [List.range_succ]

/-- String-level and buffer-level chunk loops take the same branches;
the string level finalizes each buffer with join-and-strip. -/
theorem chunkLoop_eq_bufLoop (tok : String → Nat) (ct ot : Nat) :
    ∀ (sents : List String) (bufs : List (List String)) (cur : List String)
      (t : Nat),
      chunkLoop tok ct ot sents (bufs.map finalizeChunk) cur t =
        (chunkBufLoop tok ct ot sents bufs cur t).map finalizeChunk := by
  intro sents
  induction sents with
  | nil =>
    intro bufs cur t
    by_cases h : cur = [] <;>
      simp [chunkLoop, chunkBufLoop, h]
  | cons s rest ih =>
    intro bufs cur t
    by_cases h : cur ≠ [] ∧ ct < t + tok s
    · rw [chunkLoop, chunkBufLoop]
      simp only [if_pos h]
      by_cases ho : 0 < ot
      · simp only [if_pos ho]
        have := ih (bufs ++ [cur]) (overlapOf tok ot cur ++ [s])
          (((overlapOf tok ot cur).map tok).sum + tok s)
        simpa using this
      · simp only [if_neg ho]
        have := ih (bufs ++ [cur]) [s] (tok s)
        simpa using this
    · rw [chunkLoop, chunkBufLoop]
      simp only [if_neg h]
      exact ih bufs (cur ++ [s]) (t + tok s)

/-- chunk_text is the buffer list, each buffer joined with spaces and
stripped, with empty chunk strings dropped. -/
theorem chunk_text_eq_buffers (tok : String → Nat) (ct ot : Nat)
    (text : String) :
    chunk_text tok text ct ot =
      ((chunkBuffers tok ct ot (sentence_split text)).map finalizeChunk).filter
        (fun c => c ≠ "") := by
  have h := chunkLoop_eq_bufLoop tok ct ot (sentence_split text) [] [] 0
  simp only [List.map_nil] at h
  rw [chunk_text, h, chunkBuffers]

/-- The chunk loop performs exactly one iteration per sentence, whatever
the chunk and overlap budgets. -/
theorem chunkSteps_eq_length (tok : String → Nat) (ct ot : Nat) :
    ∀ (sents : List String) (cur : List String) (t : Nat),
      chunkSteps tok ct ot sents cur t = sents.length := by
  intro sents
  induction sents with
  | nil => intro cur t; rfl
  | cons s rest ih =>
    intro cur t
    rw [chunkSteps]
    by_cases h : cur ≠ [] ∧ ct < t + tok s
    · simp only [if_pos h]
      by_cases ho : 0 < ot
      · simp [if_pos ho, ih, Nat.add_comm]
      · simp [if_neg ho, ih, Nat.add_comm]
    · simp [if_neg h, ih, Nat.add_comm]

/-- The buffer loop emits at most one buffer per remaining sentence,
plus the pending buffer. -/
theorem chunkBufLoop_length (tok : String → Nat) (ct ot : Nat) :
    ∀ (sents : List String) (bufs : List (List String)) (cur : List String)
      (t : Nat),
      (chunkBufLoop tok ct ot sents bufs cur t).length ≤
        bufs.length + sents.length + (if cur = [] then 0 else 1) := by
  intro sents
  induction sents with
  | nil =>
    intro bufs cur t
    by_cases h : cur = [] <;> simp [chunkBufLoop, h]
  | cons s rest ih =>
    intro bufs cur t
    rw [chunkBufLoop]
    by_cases h : cur ≠ [] ∧ ct < t + tok s
    · simp only [if_pos h]
      by_cases ho : 0 < ot
      · simp only [if_pos ho]
        have := ih (bufs ++ [cur]) (overlapOf tok ot cur ++ [s])
          (((overlapOf tok ot cur).map tok).sum + tok s)
        simp only [List.length_append, List.length_cons, List.length_nil] at this ⊢
        rw [if_neg (by simp)] at this
        rw [if_neg h.1]
        omega
      · simp only [if_neg ho]
        have := ih (bufs ++ [cur]) [s] (tok s)
        simp only [List.length_append, List.length_cons, List.length_nil] at this ⊢
        rw [if_neg (by simp)] at this
        rw [if_neg h.1]
        omega
    · simp only [if_neg h]
      have := ih bufs (cur ++ [s]) (t + tok s)
      simp only [List.length_cons] at this ⊢
      rw [if_neg (by simp)] at this
      by_cases hc : cur = [] <;> [rw [if_pos hc]; rw [if_neg hc]] <;> omega

/-- C10: chunk_text terminates on every input and parameter choice,
including overlap_tokens >= chunk_tokens: the main loop consumes each
sentence of the finite splitter output exactly once (one iteration per
sentence), and the returned list is finite with at most one chunk per
sentence. -/
theorem chunk_text_terminates (tok : String → Nat) (text : String)
    (chunk_tokens overlap_tokens : Nat) :
    chunkSteps tok chunk_tokens overlap_tokens (sentence_split text) [] 0 =
      (sentence_split text).length ∧
    (chunk_text tok text chunk_tokens overlap_tokens).length ≤
      (sentence_split text).length := by
  refine ⟨chunkSteps_eq_length tok chunk_tokens overlap_tokens _ [] 0, ?_⟩
  rw [chunk_text_eq_buffers]
  calc (((chunkBuffers tok chunk_tokens overlap_tokens
            (sentence_split text)).map finalizeChunk).filter
          (fun c => c ≠ "")).length
      ≤ ((chunkBuffers tok chunk_tokens overlap_tokens
            (sentence_split text)).map finalizeChunk).length :=
        List.length_filter_le _ _
    _ = (chunkBuffers tok chunk_tokens overlap_tokens
          (sentence_split text)).length := List.length_map _ _
    _ ≤ (sentence_split text).length := by
        have := chunkBufLoop_length tok chunk_tokens overlap_tokens
          (sentence_split text) [] [] 0
        simpa [chunkBuffers] using this

/-- With overlap_tokens = 0 the finalized buffers concatenate exactly to
the sentence list: consecutive chunks are built from disjoint, adjacent
segments of the splitter output. -/
theorem chunkBufLoop_flatten_no_overlap (tok : String → Nat) (ct : Nat) :
    ∀ (sents : List String) (bufs : List (List String)) (cur : List String)
      (t : Nat),
      (chunkBufLoop tok ct 0 sents bufs cur t).flatten =
        bufs.flatten ++ cur ++ sents := by
  intro sents
  induction sents with
  | nil =>
    intro bufs cur t
    by_cases h : cur = [] <;> simp [chunkBufLoop, h]
  | cons s rest ih =>
    intro bufs cur t
    rw [chunkBufLoop]
    by_cases h : cur ≠ [] ∧ ct < t + tok s
    · simp only [if_pos h, if_neg (lt_irrefl 0)]
      rw [ih]
      simp
    · simp only [if_neg h]
      rw [ih]
      simp

/-- C4: with overlap_tokens = 0 the chunks partition the splitter output
in order — concatenating the chunk buffers gives back the sentence list —
so no sentence occurrence is shared between chunks; in particular, when
the sentences are pairwise distinct strings, any two chunks (consecutive
ones included) share no sentence. -/
theorem chunk_no_overlap_partition (tok : String → Nat) (ct : Nat)
    (text : String) :
    (chunkBuffers tok ct 0 (sentence_split text)).flatten =
      sentence_split text ∧
    ((sentence_split text).Nodup →
      (chunkBuffers tok ct 0 (sentence_split text)).Pairwise List.Disjoint) := by
  have h : (chunkBuffers tok ct 0 (sentence_split text)).flatten =
      sentence_split text := by
    have := chunkBufLoop_flatten_no_overlap tok ct (sentence_split text) [] [] 0
    simpa [chunkBuffers] using this
  refine ⟨h, fun hnd => ?_⟩
  have : (chunkBuffers tok ct 0 (sentence_split text)).flatten.Nodup := by
    rw [h]; exact hnd
  exact (List.nodup_flatten.mp this).2

/-- C4 witness: a concrete zero-overlap run whose two chunks partition
the three sentences and share nothing. -/
theorem chunk_no_overlap_partition_witness :
    (chunkBuffers charTok 10 0
        (sentence_split ("Aaa. Bbb. Cccccccc."))).flatten =
      sentence_split ("Aaa. Bbb. Cccccccc.") ∧
    (chunkBuffers charTok 10 0
        (sentence_split ("Aaa. Bbb. Cccccccc."))).Pairwise List.Disjoint :=
  ⟨(chunk_no_overlap_partition charTok 10 ("Aaa. Bbb. Cccccccc.")).1,
    (chunk_no_overlap_partition charTok 10 ("Aaa. Bbb. Cccccccc.")).2
      (by decide)⟩

/-- The overlap walk never accumulates more than overlap_tokens tokens. -/
theorem overlapLoop_sum (tok : String → Nat) (ot : Nat) :
    ∀ (l ov : List String) (toks : Nat),
      (ov.map tok).sum = toks → toks ≤ ot →
      ((overlapLoop tok ot l ov toks).map tok).sum ≤ ot := by
  intro l
  induction l with
  | nil =>
    intro ov toks hsum hle
    rw [overlapLoop, hsum]
    exact hle
  | cons sent rest ih =>
    intro ov toks hsum hle
    rw [overlapLoop]
    by_cases h : ot < toks + tok sent
    · rw [if_pos h, hsum]
      exact hle
    · rw [if_neg h]
      exact ih (sent :: ov) (toks + tok sent)
        (by rw [List.map_cons, List.sum_cons, hsum]; omega) (by omega)

/-- The overlap seed carries at most overlap_tokens tokens. -/
theorem overlapOf_sum (tok : String → Nat) (ot : Nat) (cur : List String) :
    ((overlapOf tok ot cur).map tok).sum ≤ ot :=
  overlapLoop_sum tok ot cur.reverse [] 0 rfl (Nat.zero_le ot)

/-- The overlap walk returns a reversed prefix of the walked list on top
of the initial accumulator. -/
theorem overlapLoop_shape (tok : String → Nat) (ot : Nat) :
    ∀ (l ov : List String) (toks : Nat),
      ∃ l₁, l₁ <+: l ∧
        overlapLoop tok ot l ov toks = l₁.reverse ++ ov := by
  intro l
  induction l with
  | nil =>
    intro ov toks
    exact ⟨[], List.nil_prefix, rfl⟩
  | cons sent rest ih =>
    intro ov toks
    rw [overlapLoop]
    by_cases h : ot < toks + tok sent
    · rw [if_pos h]
      exact ⟨[], List.nil_prefix, rfl⟩
    · rw [if_neg h]
      obtain ⟨l₁, hpre, heq⟩ := ih (sent :: ov) (toks + tok sent)
      refine ⟨sent :: l₁, List.cons_prefix_cons.mpr ⟨rfl, hpre⟩, ?_⟩
      rw [heq]
      simp

/-- The overlap seed is a suffix of the buffer it was carved from:
overlap never reorders or invents sentences. -/
theorem overlapOf_suffix (tok : String → Nat) (ot : Nat)
    (cur : List String) :
    overlapOf tok ot cur <:+ cur := by
  obtain ⟨l₁, hpre, heq⟩ := overlapLoop_shape tok ot cur.reverse [] 0
  rw [overlapOf, heq, List.append_nil]
  exact List.reverse_prefix.mp (by simpa using hpre)

/-- Size invariant of the chunk loop: every buffer it ever finalizes is
within the chunk budget or is an overlap seed plus one sentence. -/
theorem chunkBufLoop_sizeOk (tok : String → Nat) (ct ot : Nat) :
    ∀ (sents : List String) (bufs : List (List String)) (cur : List String)
      (t : Nat),
      t = (cur.map tok).sum →
      (∀ B ∈ bufs, chunkSizeOk tok ct ot B) →
      chunkSizeOk tok ct ot cur →
      ∀ B ∈ chunkBufLoop tok ct ot sents bufs cur t,
        chunkSizeOk tok ct ot B := by
  intro sents
  induction sents with
  | nil =>
    intro bufs cur t ht hb hc B hB
    rw [chunkBufLoop] at hB
    by_cases h : cur = []
    · rw [if_pos h] at hB
      exact hb B hB
    · rw [if_neg h] at hB
      rcases List.mem_append.mp hB with h1 | h2
      · exact hb B h1
      · rw [List.mem_singleton] at h2
        exact h2 ▸ hc
  | cons s rest ih =>
    intro bufs cur t ht hb hc B hB
    rw [chunkBufLoop] at hB
    by_cases h : cur ≠ [] ∧ ct < t + tok s
    · rw [if_pos h] at hB
      have hb' : ∀ B ∈ bufs ++ [cur], chunkSizeOk tok ct ot B := by
        intro B hB
        rcases List.mem_append.mp hB with h1 | h2
        · exact hb B h1
        · rw [List.mem_singleton] at h2
          exact h2 ▸ hc
      by_cases ho : 0 < ot
      · rw [if_pos ho] at hB
        refine ih (bufs ++ [cur]) (overlapOf tok ot cur ++ [s]) _
          (by simp) hb' ?_ B hB
        refine Or.inr ⟨overlapOf tok ot cur, s, rfl, overlapOf_sum tok ot cur, ?_⟩
        have := overlapOf_sum tok ot cur
        simp only [List.map_append, List.sum_append, List.map_cons,
          List.map_nil, List.sum_cons, List.sum_nil]
        omega
      · rw [if_neg ho] at hB
        refine ih (bufs ++ [cur]) [s] _ (by simp) hb' ?_ B hB
        exact Or.inr ⟨[], s, rfl, Nat.zero_le ot, by simp⟩
    · rw [if_neg h] at hB
      push_neg at h
      refine ih bufs (cur ++ [s]) _ (by simp [ht]) hb ?_ B hB
      by_cases hcur : cur = []
      · subst hcur
        exact Or.inr ⟨[], s, rfl, Nat.zero_le ot, by simp⟩
      · have hle : t + tok s ≤ ct := h hcur
        refine Or.inl ?_
        simp only [List.map_append, List.sum_append, List.map_cons,
          List.map_nil, List.sum_cons, List.sum_nil]
        omega

/-- C2 amended: every chunk buffer has token sum at most chunk_tokens,
or it consists of an overlap seed of at most overlap_tokens tokens
followed by a single newly consumed sentence (so its sum is at most
overlap_tokens + that sentence's count).  The claimed single-oversized-
sentence exception is the special case of an empty seed; with
overlap_tokens > 0 a chunk may exceed chunk_tokens even though none of
its sentences does. -/
theorem chunk_bound_amended (tok : String → Nat) (ct ot : Nat)
    (text : String) :
    ∀ B ∈ chunkBuffers tok ct ot (sentence_split text),
      (B.map tok).sum ≤ ct ∨
      ∃ seed s, B = seed ++ [s] ∧ (seed.map tok).sum ≤ ot ∧
        (B.map tok).sum ≤ ot + tok s := by
  intro B hB
  exact chunkBufLoop_sizeOk tok ct ot (sentence_split text) [] [] 0 rfl
    (by simp) (Or.inl (by simp)) B hB

/-- C2 amended witness: the oversized buffer of the counterexample run
decomposes as seed plus one sentence within the amended bound. -/
theorem chunk_bound_amended_witness :
    ((["Aaa", "Bbb", "Cccccccc."] : List String).map charTok).sum ≤ 10 ∨
    ∃ seed s, (["Aaa", "Bbb", "Cccccccc."] : List String) = seed ++ [s] ∧
      (seed.map charTok).sum ≤ 8 ∧
      ((["Aaa", "Bbb", "Cccccccc."] : List String).map charTok).sum ≤
        8 + charTok s :=
  chunk_bound_amended charTok 10 8 ("Aaa. Bbb. Cccccccc.")
    (["Aaa", "Bbb", "Cccccccc."] : List String) (by decide)

/-- C2 counterexample: with chunk_tokens = 10 and overlap_tokens = 8,
the second chunk produced for this text counts 17 tokens, strictly more
than chunk_tokens, yet every sentence of the text is within the budget
and the chunk holds three sentences — the overlap carry-over, not an
unsplittable sentence, caused the excess. -/
theorem chunk_bound_counterexample :
    chunk_text charTok ("Aaa. Bbb. Cccccccc.") 10 8 =
      ["Aaa Bbb", "Aaa Bbb Cccccccc."] ∧
    10 < charTok ("Aaa Bbb Cccccccc.") ∧
    (∀ s ∈ sentence_split ("Aaa. Bbb. Cccccccc."), charTok s ≤ 10) ∧
    chunkBuffers charTok 10 8 (sentence_split ("Aaa. Bbb. Cccccccc.")) =
      [["Aaa", "Bbb"], ["Aaa", "Bbb", "Cccccccc."]] := by
  refine ⟨by decide, by decide, by decide, by decide⟩

/-- Annotated loop specification: (i) gluing each (seed, new) pair gives
the plain buffer loop's output; (ii) the newly consumed parts
concatenate to the pending new sentences followed by the remaining
input; (iii) each seed is a suffix of the preceding buffer, provided the
accumulator already chains. -/
theorem chunkAnnLoop_spec (tok : String → Nat) (ct ot : Nat) :
    ∀ (sents : List String) (acc : List (List String × List String))
      (cs cn : List String) (t : Nat),
      chunkBufLoop tok ct ot sents (acc.map fun p => p.1 ++ p.2)
          (cs ++ cn) t =
        (chunkAnnLoop tok ct ot sents acc cs cn t).map (fun p => p.1 ++ p.2) ∧
      ((chunkAnnLoop tok ct ot sents acc cs cn t).map Prod.snd).flatten =
        (acc.map Prod.snd).flatten ++ cn ++ sents ∧
      (List.Chain' (fun p q => q.1 <:+ p.1 ++ p.2) (acc ++ [(cs, cn)]) →
        List.Chain' (fun p q => q.1 <:+ p.1 ++ p.2)
          (chunkAnnLoop tok ct ot sents acc cs cn t)) := by
  intro sents
  induction sents with
  | nil =>
    intro acc cs cn t
    rw [chunkAnnLoop, chunkBufLoop]
    by_cases h : cs ++ cn = []
    · rw [if_pos h, if_pos h]
      have hcn : cn = [] := (List.append_eq_nil.mp h).2
      exact ⟨rfl, by simp [hcn], fun hch => (List.chain'_append.mp hch).1⟩
    · rw [if_neg h, if_neg h]
      exact ⟨by simp, by simp, fun hch => hch⟩
  | cons s rest ih =>
    intro acc cs cn t
    rw [chunkAnnLoop, chunkBufLoop]
    by_cases h : cs ++ cn ≠ [] ∧ ct < t + tok s
    · rw [if_pos h, if_pos h]
      have hlast : ∀ x ∈ (acc ++ [(cs, cn)]).getLast?, x = (cs, cn) := by
        intro x hx
        rw [List.getLast?_concat] at hx
        exact (Option.mem_some_iff.mp hx).symm
      by_cases ho : 0 < ot
      · rw [if_pos ho]
        simp only [if_pos ho]
        obtain ⟨ih1, ih2, ih3⟩ := ih (acc ++ [(cs, cn)])
          (overlapOf tok ot (cs ++ cn)) [s]
          (((overlapOf tok ot (cs ++ cn)).map tok).sum + tok s)
        refine ⟨?_, ?_, ?_⟩
        · rw [← ih1]
          simp
        · rw [ih2]
          simp
        · intro hch
          refine ih3 (List.chain'_append.mpr
            ⟨hch, List.chain'_singleton _, fun x hx y hy => ?_⟩)
          rw [hlast x hx, ← Option.mem_some_iff.mp hy]
          exact overlapOf_suffix tok ot (cs ++ cn)
      · rw [if_neg ho]
        simp only [if_neg ho]
        obtain ⟨ih1, ih2, ih3⟩ := ih (acc ++ [(cs, cn)]) [] [s]
          ((List.map tok []).sum + tok s)
        simp only [List.map_nil, List.sum_nil, Nat.zero_add,
          List.nil_append] at ih1 ih2 ih3 ⊢
        refine ⟨?_, ?_, ?_⟩
        · rw [← ih1]
          simp
        · rw [ih2]
          simp
        · intro hch
          refine ih3 (List.chain'_append.mpr
            ⟨hch, List.chain'_singleton _, fun x hx y hy => ?_⟩)
          rw [hlast x hx, ← Option.mem_some_iff.mp hy]
          exact List.nil_suffix
    · rw [if_neg h, if_neg h]
      obtain ⟨ih1, ih2, ih3⟩ := ih acc cs (cn ++ [s]) (t + tok s)
      refine ⟨?_, ?_, ?_⟩
      · rw [← ih1, List.append_assoc]
      · rw [ih2]
        simp
      · intro hch
        refine ih3 ?_
        rcases List.chain'_append.mp hch with ⟨h1, _, h3⟩
        refine List.chain'_append.mpr
          ⟨h1, List.chain'_singleton _, fun x hx y hy => ?_⟩
        rw [← Option.mem_some_iff.mp hy]
        exact h3 x hx (cs, cn) (by simp)

/-- C3: every chunk buffer decomposes into an overlap seed and newly
consumed sentences; the new parts concatenate to the full splitter
output in document order (no sentence dropped or reordered), and each
seed — the only duplication — is a suffix of the preceding chunk. -/
theorem chunk_covers_sentences (tok : String → Nat) (ct ot : Nat)
    (text : String) :
    ∃ pairs : List (List String × List String),
      chunkBuffers tok ct ot (sentence_split text) =
        pairs.map (fun p => p.1 ++ p.2) ∧
      (pairs.map Prod.snd).flatten = sentence_split text ∧
      List.Chain' (fun p q => q.1 <:+ p.1 ++ p.2) pairs := by
  obtain ⟨h1, h2, h3⟩ := chunkAnnLoop_spec tok ct ot (sentence_split text)
    [] [] [] 0
  refine ⟨chunkAnnLoop tok ct ot (sentence_split text) [] [] [] 0,
    ?_, by simpa using h2, h3 (by simp)⟩
  rw [chunkBuffers, ← h1]
  simp

/-- A nonempty stripped character list starts with (hence contains) a
non-whitespace character. -/
theorem stripChars_has_content (l : List Char) (h : stripChars l ≠ []) :
    ∃ c ∈ stripChars l, isPySpace c = false := by
  have hrev : (stripChars l).reverse <:+ (l.dropWhile isPySpace).reverse := by
    simpa [stripChars] using
      List.dropWhile_suffix (l := (l.dropWhile isPySpace).reverse) isPySpace
  have hpre : stripChars l <+: l.dropWhile isPySpace :=
    List.reverse_suffix.mp hrev
  obtain ⟨tail, htail⟩ := hpre
  have hhead : (l.dropWhile isPySpace).head? = (stripChars l).head? := by
    rw [← htail]
    exact List.head?_append_of_ne_nil _ h
  cases hsc : stripChars l with
  | nil => exact absurd hsc h
  | cons c cs =>
    refine ⟨c, List.mem_cons_self c cs, ?_⟩
    have hd := List.head?_dropWhile_not isPySpace l
    rw [hhead, hsc] at hd
    simpa using hd

/-- A character list containing a non-whitespace character strips to a
nonempty list. -/
theorem stripChars_ne_nil (l : List Char) (c : Char) (hc : c ∈ l)
    (hsp : isPySpace c = false) : stripChars l ≠ [] := by
  intro h
  have h1 : (l.dropWhile isPySpace).reverse.dropWhile isPySpace = [] := by
    have := congrArg List.reverse h
    simpa [stripChars] using this
  have h2 := List.dropWhile_eq_nil_iff.mp h1
  have hcm : c ∈ l.dropWhile isPySpace := by
    have hsplit := List.takeWhile_append_dropWhile (p := isPySpace) (l := l)
    rcases List.mem_append.mp (by rw [hsplit]; exact hc) with h3 | h3
    · exact absurd (List.mem_takeWhile_imp h3) (by simp [hsp])
    · exact h3
  have := h2 c (List.mem_reverse.mpr hcm)
  simp [hsp] at this

/-- A character of a member list occurs in the space-join. -/
theorem mem_joinSpaceChars (c : Char) :
    ∀ (ls : List (List Char)) (x : List Char), x ∈ ls → c ∈ x →
      c ∈ joinSpaceChars ls := by
  intro ls
  induction ls with
  | nil =>
    intro x hx
    simp at hx
  | cons y rest ih =>
    intro x hx hc
    cases rest with
    | nil =>
      rw [List.mem_singleton] at hx
      subst hx
      simpa [joinSpaceChars] using hc
    | cons z zs =>
      show c ∈ y ++ ' ' :: joinSpaceChars (z :: zs)
      rcases List.mem_cons.mp hx with h1 | h1
      · subst h1
        exact List.mem_append_left _ hc
      · refine List.mem_append_right _ ?_
        exact List.mem_cons_of_mem _ (ih x h1 hc)

/-- Folds that only append elements satisfying a predicate preserve it. -/
theorem foldl_append_pred {α β : Type} (P : β → Prop)
    (f : List β → α → List β)
    (hf : ∀ acc a, ∃ add, f acc a = acc ++ add ∧ ∀ s ∈ add, P s) :
    ∀ (l : List α) (init : List β), (∀ s ∈ init, P s) →
      ∀ s ∈ l.foldl f init, P s := by
  intro l
  induction l with
  | nil =>
    intro init hinit s hs
    exact hinit s hs
  | cons a rest ih =>
    intro init hinit s hs
    rw [List.foldl_cons] at hs
    obtain ⟨add, heq, hadd⟩ := hf init a
    refine ih (f init a) (fun x hx => ?_) s hs
    rw [heq] at hx
    rcases List.mem_append.mp hx with h1 | h1
    · exact hinit x h1
    · exact hadd x h1

/-- When the stripped input is nonempty, every output of the sentence
splitter is a nonempty stripped string. -/
theorem sentence_split_shape (text : String) (hne : pyStrip text ≠ "") :
    ∀ s ∈ sentence_split text,
      s ≠ "" ∧ ∃ l : List Char, s = (⟨stripChars l⟩ : String) := by
  intro s hs
  simp only [sentence_split] at hs
  split at hs
  · rw [List.mem_singleton] at hs
    subst hs
    exact ⟨hne, text.data, rfl⟩
  · refine foldl_append_pred
      (fun s => s ≠ "" ∧ ∃ l : List Char, s = (⟨stripChars l⟩ : String))
      _ ?_ (splitParas text) [] (by simp) s hs
    intro acc para
    by_cases hp : pyStrip para = ""
    · exact ⟨[], by simp [hp], by simp⟩
    · refine ⟨((if (reSplit (pyStrip para)).length = 1
          then fallbackSplit (pyStrip para)
          else reSplit (pyStrip para)).map pyStrip).filter
            (fun s => s ≠ ""),
        by rw [if_neg hp], fun x hx => ?_⟩
      rw [List.mem_filter] at hx
      obtain ⟨hx1, hx2⟩ := hx
      obtain ⟨y, _, hy⟩ := List.mem_map.mp hx1
      exact ⟨by simpa using hx2, y.data, by rw [← hy]; rfl⟩

/-- The sentence splitter never returns an empty list. -/
theorem sentence_split_ne_nil (text : String) : sentence_split text ≠ [] := by
  simp only [sentence_split]
  split
  · simp
  · assumption

/-- When the total token count of all sentences fits the budget, the
chunk loop never finalizes early: everything ends up in one buffer. -/
theorem chunkBufLoop_no_overflow (tok : String → Nat) (ct ot : Nat) :
    ∀ (sents : List String) (bufs : List (List String)) (cur : List String)
      (t : Nat),
      t = (cur.map tok).sum →
      t + (sents.map tok).sum ≤ ct →
      chunkBufLoop tok ct ot sents bufs cur t =
        if cur ++ sents = [] then bufs else bufs ++ [cur ++ sents] := by
  intro sents
  induction sents with
  | nil =>
    intro bufs cur t ht hsum
    rw [chunkBufLoop]
    by_cases h : cur = [] <;> simp [h]
  | cons s rest ih =>
    intro bufs cur t ht hsum
    simp only [List.map_cons, List.sum_cons] at hsum
    rw [chunkBufLoop]
    rw [if_neg (by
      rintro ⟨-, hlt⟩
      omega)]
    rw [ih bufs (cur ++ [s]) (t + tok s)
      (by rw [ht]; simp) (by omega)]
    rw [if_neg (by simp), if_neg (by simp)]
    simp

/-- A nonempty list of nonempty stripped sentences joins and strips to a
nonempty chunk string. -/
theorem finalizeChunk_ne_empty (sents : List String)
    (hsh : ∀ s ∈ sents,
      s ≠ "" ∧ ∃ l : List Char, s = (⟨stripChars l⟩ : String))
    (hne : sents ≠ []) : finalizeChunk sents ≠ "" := by
  obtain ⟨s0, rest, rfl⟩ : ∃ s0 rest, sents = s0 :: rest := by
    cases sents with
    | nil => exact absurd rfl hne
    | cons a b => exact ⟨a, b, rfl⟩
  obtain ⟨hs0, l, hl⟩ := hsh s0 (List.mem_cons_self s0 rest)
  have hdata : s0.data = stripChars l := by
    rw [hl]
  have hd0 : stripChars l ≠ [] := by
    intro h
    apply hs0
    have hnil : s0.data = ([] : List Char) := by rw [hdata, h]
    cases s0 with
    | mk d =>
      have hd : d = [] := by simpa using hnil
      subst hd
      rfl
  obtain ⟨c, hcmem, hcsp⟩ := stripChars_has_content l hd0
  have hcj : c ∈ joinSpaceChars ((s0 :: rest).map String.data) :=
    mem_joinSpaceChars c _ s0.data (by simp) (by rw [hdata]; exact hcmem)
  have hnn : stripChars (joinSpaceChars ((s0 :: rest).map String.data)) ≠ [] :=
    stripChars_ne_nil _ c hcj hcsp
  intro hcontra
  have hdat : stripChars (joinSpaceChars ((s0 :: rest).map String.data)) = [] := by
    have hq := congrArg String.data hcontra
    simpa [finalizeChunk, pyStrip, joinSpace] using hq
  exact hnn hdat

/-- C1 amended: when the sentence splitter's outputs have total token
count within chunk_tokens and the stripped text is nonempty, chunk_text
returns exactly one chunk — the sentences joined by single spaces and
stripped.  This equals text.strip() exactly when the splitter returns
the whole stripped text as one sentence; in general paragraph breaks and
regex-consumed sentence punctuation are replaced by single spaces. -/
theorem chunk_single_amended (tok : String → Nat) (ct ot : Nat)
    (text : String) (hne : pyStrip text ≠ "")
    (hsum : ((sentence_split text).map tok).sum ≤ ct) :
    chunk_text tok text ct ot = [finalizeChunk (sentence_split text)] := by
  rw [chunk_text_eq_buffers]
  have hbuf : chunkBuffers tok ct ot (sentence_split text) =
      [sentence_split text] := by
    rw [chunkBuffers,
      chunkBufLoop_no_overflow tok ct ot (sentence_split text) [] [] 0 rfl
        (by simpa using hsum)]
    rw [if_neg (by simpa using sentence_split_ne_nil text)]
    simp
  rw [hbuf]
  have hfin := finalizeChunk_ne_empty (sentence_split text)
    (sentence_split_shape text hne) (sentence_split_ne_nil text)
  simp [hfin]

/-- C1 amended witness: a single-sentence text within budget comes back
as the one stripped chunk. -/
theorem chunk_single_amended_witness :
    chunk_text charTok ("Hi there") 400 60 = ["Hi there"] := by
  rw [chunk_single_amended charTok 400 60 ("Hi there") (by decide) (by decide)]
  decide

/-- C1 counterexample: the two-paragraph text below has token count
within chunk_tokens under the character tokenizer, and chunk_text indeed
returns exactly one chunk, but the chunk joins the paragraphs with a
single space instead of equalling text.strip() — and the same equality
failure occurs for any tokenizer, since the output content does not
depend on token counts here. -/
theorem chunk_single_counterexample :
    charTok ("Aa\n\nBb") ≤ 400 ∧
    pyStrip ("Aa\n\nBb") = ("Aa\n\nBb") ∧
    chunk_text charTok ("Aa\n\nBb") 400 60 = ["Aa Bb"] ∧
    ("Aa Bb" : String) ≠ ("Aa\n\nBb") := by
  refine ⟨by decide, by decide, by decide, by decide⟩

end Rag
